import Mathlib

set_option autoImplicit false

/-!
Verification development for the LWC server-side rendering engine and
template compiler.  The definitions below are shallow embeddings of the
functions in `packages/@lwc/engine-server/src/renderer.ts` and of the
SSR compiler modules (template compilation entry point, component/child
attribute lowering, and the synthesized `generateMarkup` entry point).
Theorems settle the specification claims about those functions.
-/

namespace LWC

/-! ### JavaScript runtime values

Attribute values flow through the renderer as arbitrary JavaScript
values (`setProperty` forwards its `value: any` argument into
`setAttribute`), so the embedding models a small universe of JS values
with the `String(...)` coercion used by `setAttribute`. -/

inductive JSVal where
  | str (s : String)
  | num (n : Int)
  | boolean (b : Bool)
  | nullV
  | undef
deriving DecidableEq

/-- JavaScript `String(value)` coercion for the modelled value universe. -/
def jsToString : JSVal → String
  | .str s => s
  | .num n => toString n
  | .boolean true => "true"
  | .boolean false => "false"
  | .nullV => "null"
  | .undef => "undefined"

/-! ### Host element attributes (renderer.ts lines 255-340)

An attribute record carries `name`, `HostNamespaceKey` (a string or
`null`, modelled as `Option String` with `none` for `null`) and `value`.
The element model used by the attribute operations carries just the
`HostAttributesKey` array, which is the only element state these
functions read or write. -/

structure HostAttribute where
  name : String
  ns : Option String
  value : JSVal
deriving DecidableEq

structure AttrElement where
  attributes : List HostAttribute
deriving DecidableEq

/-- Replaces the value of the first attribute satisfying `p`, modelling
the JS mutation `attribute.value = v` of the object returned by
`find`. -/
def updateFirstValue (p : HostAttribute → Bool) (v : JSVal) :
    List HostAttribute → List HostAttribute
  | [] => []
  | a :: rest =>
    if p a then { a with value := v } :: rest else a :: updateFirstValue p v rest

/-- The find predicate used by the attribute operations to match an
attribute by its `(name, namespace)` key. -/
def keyP (name : String) (ns : Option String) : HostAttribute → Bool :=
  fun attr => attr.name == name && attr.ns == ns

/-- Embeds `getAttribute` (renderer.ts lines 255-260).  The TS signature
defaults `namespace` to `null`, so the parameter is `Option String`. -/
def getAttribute (element : AttrElement) (name : String) (ns : Option String) :
    Option JSVal :=
  match element.attributes.find? (keyP name ns) with
  | some attributeRec => some attributeRec.value
  | none => none

/-- Embeds `setAttribute` (renderer.ts lines 262-280): find the attribute
keyed by `(name, namespace)`; push a new record with `String(value)` if
absent, otherwise assign `attribute.value = value` in place (no string
coercion on this branch).  The `isUndefined(namespace)` normalization in
the source is unreachable because the TS parameter default (`= null`)
replaces an `undefined` argument before the function body runs. -/
def setAttribute (element : AttrElement) (name : String) (value : JSVal)
    (ns : Option String) : AttrElement :=
  match element.attributes.find? (keyP name ns) with
  | none =>
    { element with
      attributes := element.attributes ++ [⟨name, ns, .str (jsToString value)⟩] }
  | some _ =>
    { element with attributes := updateFirstValue (keyP name ns) value element.attributes }

/-- Embeds `removeAttribute` (renderer.ts lines 282-286).  The
`namespace` parameter has no default, so a call site may omit it
(JS `undefined`); the argument domain is therefore
`Option (Option String)` with `none` for `undefined`, `some none` for
`null` and `some (some s)` for a string.  The filter keeps exactly the
attributes with `attr.name !== name && attr.namespace !== namespace`. -/
def removeAttribute (element : AttrElement) (name : String)
    (nsArg : Option (Option String)) : AttrElement :=
  { element with
    attributes := element.attributes.filter
      (fun attr => attr.name != name && (some attr.ns : Option (Option String)) != nsArg) }

/-- Embeds `setCSSStyleProperty` (renderer.ts lines 324-340): find the
`style` attribute with `null` namespace; push the serialized property if
absent, otherwise append `"; " + serialized` to the existing value (the
JS `+=` operator coerces the existing value to a string). -/
def setCSSStyleProperty (element : AttrElement) (name : String) (value : String)
    (important : Bool) : AttrElement :=
  let serializedProperty := name ++ ": " ++ value ++ (if important then " !important" else "")
  match element.attributes.find? (keyP "style" none) with
  | none =>
    { element with
      attributes := element.attributes ++ [⟨"style", none, .str serializedProperty⟩] }
  | some styleAttribute =>
    { element with
      attributes := updateFirstValue (keyP "style" none)
        (.str (jsToString styleAttribute.value ++ "; " ++ serializedProperty))
        element.attributes }

/-- Modelled from the spec: the class utilities module
(`./utils/classes`, providing `classNameToTokenList` and
`tokenListToClassName`) is not among the sources.  Following the spec's
description of a class-list normalizer backed by native `DOMTokenList`
set semantics, a class string is split on whitespace into an ordered
deduplicated token list. -/
def classNameToTokenList (value : String) : List String :=
  ((value.split (fun c => c = ' ' || c = '\t' || c = '\n')).filter (fun s => s ≠ "")).dedup

/-- Modelled from the spec: inverse direction of the class-list
normalizer, joining tokens with single spaces. -/
def tokenListToClassName (tokens : List String) : String :=
  String.intercalate " " tokens

/-- Embeds the `add` closure of `getClassList` (renderer.ts lines
306-313) together with `getClassAttribute` (lines 289-304): find the
`class`/`null` attribute, pushing an empty one if absent, then rebuild
its value from the token list with the given names set-added. -/
def classListAdd (element : AttrElement) (names : List String) : AttrElement :=
  let withClass : AttrElement × JSVal :=
    match element.attributes.find? (keyP "class" none) with
    | some classAttribute => (element, classAttribute.value)
    | none =>
      ({ element with attributes := element.attributes ++ [⟨"class", none, .str ""⟩] }, .str "")
  let tokenList := names.foldl (fun l n => if n ∈ l then l else l ++ [n])
    (classNameToTokenList (jsToString withClass.2))
  { withClass.1 with
    attributes := updateFirstValue (keyP "class" none) (.str (tokenListToClassName tokenList))
      withClass.1.attributes }

/-- Embeds the `remove` closure of `getClassList` (renderer.ts lines
314-320), symmetric to `classListAdd` with set-deletion of the names. -/
def classListRemove (element : AttrElement) (names : List String) : AttrElement :=
  let withClass : AttrElement × JSVal :=
    match element.attributes.find? (keyP "class" none) with
    | some classAttribute => (element, classAttribute.value)
    | none =>
      ({ element with attributes := element.attributes ++ [⟨"class", none, .str ""⟩] }, .str "")
  let tokenList := names.foldl (fun l n => l.filter (fun t => t ≠ n))
    (classNameToTokenList (jsToString withClass.2))
  { withClass.1 with
    attributes := updateFirstValue (keyP "class" none) (.str (tokenListToClassName tokenList))
      withClass.1.attributes }

/-- The `(name, namespace)` key of an attribute record. -/
def attrKey (a : HostAttribute) : String × Option String := (a.name, a.ns)

/-- The uniqueness invariant: at most one attribute per
`(name, namespace)` pair. -/
@[reducible] def uniqueAttrKeys (element : AttrElement) : Prop :=
  (element.attributes.map attrKey).Nodup

theorem keyP_eq_true_iff (name : String) (ns : Option String) (a : HostAttribute) :
    keyP name ns a = true ↔ attrKey a = (name, ns) := by
  simp [keyP, attrKey, Prod.ext_iff]

theorem updateFirstValue_map_attrKey (p : HostAttribute → Bool) (v : JSVal) :
    ∀ l : List HostAttribute, (updateFirstValue p v l).map attrKey = l.map attrKey := by
  intro l
  induction l with
  | nil => rfl
  | cons a rest ih =>
    by_cases h : p a = true
    · simp [updateFirstValue, h, attrKey]
    · simp [updateFirstValue, h, ih]

theorem find?_keyP_eq_none_iff (name : String) (ns : Option String)
    (l : List HostAttribute) :
    l.find? (keyP name ns) = none ↔ (name, ns) ∉ l.map attrKey := by
  rw [List.find?_eq_none]
  constructor
  · intro h hmem
    obtain ⟨a, ha, hkey⟩ := List.mem_map.mp hmem
    exact h a ha ((keyP_eq_true_iff name ns a).mpr hkey)
  · intro h a ha hp
    exact h (List.mem_map.mpr ⟨a, ha, (keyP_eq_true_iff name ns a).mp hp⟩)

theorem nodup_append_key (l : List HostAttribute) (a : HostAttribute)
    (hl : (l.map attrKey).Nodup) (ha : attrKey a ∉ l.map attrKey) :
    ((l ++ [a]).map attrKey).Nodup := by
  rw [List.map_append, List.nodup_append]
  refine ⟨hl, List.nodup_singleton _, ?_⟩
  intro k hk hk'
  simp only [List.map_singleton, List.mem_singleton] at hk'
  exact ha (hk' ▸ hk)

theorem setAttribute_unique (e : AttrElement) (name : String) (v : JSVal)
    (ns : Option String) (h : uniqueAttrKeys e) :
    uniqueAttrKeys (setAttribute e name v ns) := by
  unfold setAttribute
  cases hfind : e.attributes.find? (keyP name ns) with
  | none =>
    exact nodup_append_key e.attributes ⟨name, ns, .str (jsToString v)⟩ h
      ((find?_keyP_eq_none_iff name ns e.attributes).mp hfind)
  | some a =>
    show (List.map attrKey (updateFirstValue (keyP name ns) v e.attributes)).Nodup
    rw [updateFirstValue_map_attrKey]
    exact h

theorem setCSSStyleProperty_unique (e : AttrElement) (name value : String)
    (important : Bool) (h : uniqueAttrKeys e) :
    uniqueAttrKeys (setCSSStyleProperty e name value important) := by
  unfold setCSSStyleProperty
  cases hfind : e.attributes.find? (keyP "style" none) with
  | none =>
    exact nodup_append_key e.attributes
      ⟨"style", none, .str (name ++ ": " ++ value ++ (if important then " !important" else ""))⟩ h
      ((find?_keyP_eq_none_iff "style" none e.attributes).mp hfind)
  | some a =>
    show (List.map attrKey (updateFirstValue (keyP "style" none) _ e.attributes)).Nodup
    rw [updateFirstValue_map_attrKey]
    exact h

theorem classListAdd_unique (e : AttrElement) (names : List String)
    (h : uniqueAttrKeys e) : uniqueAttrKeys (classListAdd e names) := by
  unfold classListAdd
  cases hfind : e.attributes.find? (keyP "class" none) with
  | none =>
    simp only [uniqueAttrKeys, updateFirstValue_map_attrKey]
    exact nodup_append_key e.attributes ⟨"class", none, .str ""⟩ h
      ((find?_keyP_eq_none_iff "class" none e.attributes).mp hfind)
  | some a =>
    simp only [uniqueAttrKeys, updateFirstValue_map_attrKey]
    exact h

theorem classListRemove_unique (e : AttrElement) (names : List String)
    (h : uniqueAttrKeys e) : uniqueAttrKeys (classListRemove e names) := by
  unfold classListRemove
  cases hfind : e.attributes.find? (keyP "class" none) with
  | none =>
    simp only [uniqueAttrKeys, updateFirstValue_map_attrKey]
    exact nodup_append_key e.attributes ⟨"class", none, .str ""⟩ h
      ((find?_keyP_eq_none_iff "class" none e.attributes).mp hfind)
  | some a =>
    simp only [uniqueAttrKeys, updateFirstValue_map_attrKey]
    exact h

/-- An operation language covering the attribute-mutating renderer
operations named by the attribute-invariant claim. -/
inductive AttrOp where
  | setAttr (name : String) (value : JSVal) (ns : Option String)
  | setCSS (name value : String) (important : Bool)
  | classAdd (names : List String)
  | classRemove (names : List String)

def applyAttrOp (element : AttrElement) : AttrOp → AttrElement
  | .setAttr n v ns => setAttribute element n v ns
  | .setCSS n v imp => setCSSStyleProperty element n v imp
  | .classAdd ns => classListAdd element ns
  | .classRemove ns => classListRemove element ns

def applyAttrOps (element : AttrElement) (ops : List AttrOp) : AttrElement :=
  ops.foldl applyAttrOp element

theorem applyAttrOp_unique (e : AttrElement) (op : AttrOp) (h : uniqueAttrKeys e) :
    uniqueAttrKeys (applyAttrOp e op) := by
  cases op with
  | setAttr n v ns => exact setAttribute_unique e n v ns h
  | setCSS n v imp => exact setCSSStyleProperty_unique e n v imp h
  | classAdd ns => exact classListAdd_unique e ns h
  | classRemove ns => exact classListRemove_unique e ns h

theorem applyAttrOps_unique (ops : List AttrOp) :
    ∀ e : AttrElement, uniqueAttrKeys e → uniqueAttrKeys (applyAttrOps e ops) := by
  induction ops with
  | nil => intro e h; exact h
  | cons op rest ih =>
    intro e h
    exact ih (applyAttrOp e op) (applyAttrOp_unique e op h)

theorem find?_append_of_none {α : Type} (p : α → Bool) (l₂ : List α) :
    ∀ l : List α, l.find? p = none → (l ++ l₂).find? p = l₂.find? p := by
  intro l
  induction l with
  | nil => intro _; rfl
  | cons a rest ih =>
    intro h
    rw [List.find?_cons] at h
    cases hp : p a with
    | true => simp [hp] at h
    | false =>
      simp only [hp] at h
      simpa [List.find?_cons, hp] using ih h

theorem updateFirstValue_find? (p : HostAttribute → Bool)
    (hp : ∀ (a : HostAttribute) (v : JSVal), p { a with value := v } = p a)
    (v : JSVal) :
    ∀ (l : List HostAttribute) (a : HostAttribute), l.find? p = some a →
      (updateFirstValue p v l).find? p = some { a with value := v } := by
  intro l
  induction l with
  | nil => intro a h; simp at h
  | cons b rest ih =>
    intro a h
    rw [List.find?_cons] at h
    cases hb : p b with
    | true =>
      simp only [hb] at h
      cases h
      simp [updateFirstValue, hb, List.find?_cons, hp]
    | false =>
      simp only [hb] at h
      simp [updateFirstValue, hb, List.find?_cons, ih a h]

/-- Elements holding the value a created attribute receives and the raw
value an updated attribute receives, used by the claim theorems. -/
theorem setAttribute_create_coerces (e : AttrElement) (name : String) (v : JSVal)
    (ns : Option String) (h : (name, ns) ∉ e.attributes.map attrKey) :
    getAttribute (setAttribute e name v ns) name ns = some (.str (jsToString v)) := by
  have hfind : e.attributes.find? (keyP name ns) = none :=
    (find?_keyP_eq_none_iff name ns e.attributes).mpr h
  have hset : setAttribute e name v ns =
      { e with attributes := e.attributes ++ [⟨name, ns, .str (jsToString v)⟩] } := by
    unfold setAttribute
    rw [hfind]
  rw [hset]
  unfold getAttribute
  rw [show ({ e with attributes := e.attributes ++ [⟨name, ns, .str (jsToString v)⟩] } :
      AttrElement).attributes = e.attributes ++ [⟨name, ns, .str (jsToString v)⟩] from rfl]
  rw [find?_append_of_none (keyP name ns) _ e.attributes hfind]
  simp [List.find?_cons, keyP]

theorem setAttribute_update_raw (e : AttrElement) (name : String) (v : JSVal)
    (ns : Option String) (h : (name, ns) ∈ e.attributes.map attrKey) :
    getAttribute (setAttribute e name v ns) name ns = some v := by
  cases hfind : e.attributes.find? (keyP name ns) with
  | none =>
    exact absurd h ((find?_keyP_eq_none_iff name ns e.attributes).mp hfind)
  | some a =>
    have hset : setAttribute e name v ns =
        { e with attributes := updateFirstValue (keyP name ns) v e.attributes } := by
      unfold setAttribute
      rw [hfind]
    rw [hset]
    unfold getAttribute
    rw [show ({ e with attributes := updateFirstValue (keyP name ns) v e.attributes } :
        AttrElement).attributes = updateFirstValue (keyP name ns) v e.attributes from rfl]
    rw [updateFirstValue_find? (keyP name ns) (fun _ _ => rfl) v e.attributes a hfind]

/-- C9 (amended): after any sequence of setAttribute, setCSSStyleProperty
and getClassList add/remove operations, an element whose attribute set
satisfies the uniqueness invariant still has at most one attribute per
(name, namespace) pair; setAttribute coerces its value to a string when
it creates a new attribute, but when it updates an existing attribute it
stores the value argument as-is, without string coercion. -/
theorem c9_attribute_invariant :
    (∀ (e : AttrElement) (ops : List AttrOp), uniqueAttrKeys e →
      uniqueAttrKeys (applyAttrOps e ops))
    ∧ (∀ (e : AttrElement) (name : String) (v : JSVal) (ns : Option String),
        (name, ns) ∉ e.attributes.map attrKey →
        getAttribute (setAttribute e name v ns) name ns = some (.str (jsToString v)))
    ∧ (∀ (e : AttrElement) (name : String) (v : JSVal) (ns : Option String),
        (name, ns) ∈ e.attributes.map attrKey →
        getAttribute (setAttribute e name v ns) name ns = some v) :=
  ⟨fun e ops h => applyAttrOps_unique ops e h,
   setAttribute_create_coerces,
   setAttribute_update_raw⟩

def exElemC9 : AttrElement := ⟨[⟨"a", none, .str "1"⟩]⟩

/-- C9 counterexample: updating the existing attribute "a" with the
non-string value 2 stores the raw number, so not every stored attribute
value is a string — setAttribute does not coerce on the update path. -/
theorem c9_counterexample_update_not_coerced :
    (setAttribute exElemC9 "a" (.num 2) none).attributes = [⟨"a", none, .num 2⟩]
    ∧ (∀ s : String, JSVal.num 2 ≠ JSVal.str s) := by
  refine ⟨by decide, ?_⟩
  intro s h
  exact JSVal.noConfusion h

/-- C9 witness: the amended invariant theorem applied at concrete inputs. -/
theorem c9_attribute_invariant_witness :
    uniqueAttrKeys (applyAttrOps ⟨[]⟩
      [AttrOp.setAttr "a" (.str "x") none, AttrOp.setCSS "color" "red" false,
       AttrOp.classAdd ["c"], AttrOp.setAttr "a" (.num 3) none])
    ∧ getAttribute (setAttribute ⟨[]⟩ "a" (.num 1) none) "a" none = some (.str "1")
    ∧ getAttribute (setAttribute exElemC9 "a" (.num 2) none) "a" none = some (.num 2) :=
  ⟨c9_attribute_invariant.1 ⟨[]⟩ _ (by decide),
   c9_attribute_invariant.2.1 ⟨[]⟩ "a" (.num 1) none (by decide),
   c9_attribute_invariant.2.2 exElemC9 "a" (.num 2) none (by decide)⟩

def exElemC1 : AttrElement := ⟨[⟨"a", none, .str "1"⟩, ⟨"b", none, .str "2"⟩]⟩

/-- C1: removeAttribute's filter keeps only attributes whose name AND
namespace both differ from the arguments, so removing ("a", null) from
an element carrying ("a", null) and ("b", null) also drops the unrelated
("b", null) attribute instead of leaving it untouched — the
(name, namespace) keying used by getAttribute and setAttribute is
violated at this concrete input. -/
theorem c1_removeAttribute_drops_unrelated :
    (removeAttribute exElemC1 "a" (some none)).attributes = []
    ∧ getAttribute exElemC1 "b" none = some (.str "2")
    ∧ (removeAttribute exElemC1 "a" (some none)).attributes ≠ [⟨"b", none, .str "2"⟩] := by
  refine ⟨by decide, by decide, by decide⟩

/-! ### Host tree mutation (renderer.ts lines 91-115)

Host nodes are identified by natural numbers (reference identity of the
JS node objects); a tree state records every node's parent back-pointer
(`HostParentKey`) and every element's children array
(`HostChildrenKey`). -/

structure HostTree where
  parent : Nat → Option Nat
  children : Nat → List Nat

def updParent (f : Nat → Option Nat) (i : Nat) (v : Option Nat) : Nat → Option Nat :=
  fun j => if j = i then v else f j

def updChildren (f : Nat → List Nat) (i : Nat) (v : List Nat) : Nat → List Nat :=
  fun j => if j = i then v else f j

/-- JavaScript `Array.prototype.indexOf`: index of the first occurrence,
`-1` when absent. -/
def jsIndexOf (l : List Nat) (x : Nat) : Int :=
  match l with
  | [] => -1
  | a :: rest =>
    if a = x then 0
    else
      let r := jsIndexOf rest x
      if r = -1 then -1 else r + 1

/-- JavaScript `Array.prototype.splice(start, 1)`: a negative start
counts back from the end (clamped at 0), a start at or beyond the length
removes nothing. -/
def jsSpliceRemoveOne (l : List Nat) (start : Int) : List Nat :=
  let s : Nat := if start < 0 then ((l.length : Int) + start).toNat else min start.toNat l.length
  l.take s ++ l.drop (s + 1)

/-- JavaScript `Array.prototype.splice(start, 0, x)` for the
non-negative in-bounds starts produced by `insert`. -/
def jsSpliceInsert (l : List Nat) (start : Nat) (x : Nat) : List Nat :=
  l.take start ++ x :: l.drop start

/-- The detach step of `insert` (renderer.ts lines 92-96): when the
node has a recorded parent different from the destination, splice it out
of that parent's children at its `indexOf` position. -/
def insertDetach (node parent : Nat) (t : HostTree) : HostTree :=
  match t.parent node with
  | some nodeParent =>
    if nodeParent ≠ parent then
      let cs := t.children nodeParent
      { t with children := updChildren t.children nodeParent (jsSpliceRemoveOne cs (jsIndexOf cs node)) }
    else t
  | none => t

/-- Embeds `insert` (renderer.ts lines 91-106): run the detach step,
set the parent back-pointer, then either push (anchor `null` or not
found) or splice the node in before the anchor. -/
def insert (node parent : Nat) (anchor : Option Nat) (t : HostTree) : HostTree :=
  let t1 := insertDetach node parent t
  let t2 := { t1 with parent := updParent t1.parent node (some parent) }
  let anchorIndex : Int :=
    match anchor with
    | none => -1
    | some a => jsIndexOf (t2.children parent) a
  if anchorIndex = -1 then
    { t2 with children := updChildren t2.children parent (t2.children parent ++ [node]) }
  else
    { t2 with children := updChildren t2.children parent (jsSpliceInsert (t2.children parent) anchorIndex.toNat node) }

/-- Embeds `remove` (renderer.ts lines 108-111): splice the node out of
the parent's children at its `indexOf` position.  The parent
back-pointer is not touched. -/
def remove (node parent : Nat) (t : HostTree) : HostTree :=
  let cs := t.children parent
  { t with children := updChildren t.children parent (jsSpliceRemoveOne cs (jsIndexOf cs node)) }

theorem jsIndexOf_nonneg (x : Nat) :
    ∀ l : List Nat, x ∈ l → 0 ≤ jsIndexOf l x := by
  intro l
  induction l with
  | nil => intro h; cases h
  | cons a rest ih =>
    intro h
    by_cases hax : a = x
    · simp [jsIndexOf, hax]
    · have hx : x ∈ rest := by
        cases h with
        | head => exact absurd rfl hax
        | tail _ h => exact h
      have h0 := ih hx
      simp only [jsIndexOf, hax, if_false]
      by_cases hr : jsIndexOf rest x = -1
      · omega
      · simp only [hr, if_false]
        omega

theorem jsSpliceRemoveOne_cons (a : Nat) (l : List Nat) (i : Int) (h : 0 ≤ i) :
    jsSpliceRemoveOne (a :: l) (i + 1) = a :: jsSpliceRemoveOne l i := by
  unfold jsSpliceRemoveOne
  have h1 : ¬ (i + 1 < 0) := by omega
  have h2 : ¬ (i < 0) := by omega
  simp only [h1, h2, if_false]
  have h3 : (i + 1).toNat = i.toNat + 1 := by omega
  rw [h3]
  have h4 : min (i.toNat + 1) (a :: l).length = min i.toNat l.length + 1 := by
    simp only [List.length_cons]
    omega
  rw [h4]
  simp [List.take_succ_cons, List.drop_succ_cons]

/-- Splicing out one element at its `indexOf` position is `List.erase`
whenever the element is present. -/
theorem jsSpliceRemoveOne_jsIndexOf (x : Nat) :
    ∀ l : List Nat, x ∈ l → jsSpliceRemoveOne l (jsIndexOf l x) = l.erase x := by
  intro l
  induction l with
  | nil => intro h; cases h
  | cons a rest ih =>
    intro h
    by_cases hax : a = x
    · subst hax
      simp only [jsIndexOf, if_pos rfl]
      unfold jsSpliceRemoveOne
      simp [List.erase_cons_head]
    · have hx : x ∈ rest := by
        cases h with
        | head => exact absurd rfl hax
        | tail _ h => exact h
      have h0 := jsIndexOf_nonneg x rest hx
      have hr : jsIndexOf rest x ≠ -1 := by omega
      simp only [jsIndexOf, hax, if_false, hr]
      rw [jsSpliceRemoveOne_cons a rest (jsIndexOf rest x) h0, ih hx]
      have hbeq : (a == x) = false := by simp [hax]
      rw [List.erase_cons, hbeq]
      simp

theorem insertDetach_children_parent (t : HostTree) (node parent : Nat) :
    (insertDetach node parent t).children parent = t.children parent := by
  unfold insertDetach
  cases hp : t.parent node with
  | none => rfl
  | some np =>
    by_cases hnp : np = parent
    · simp [hnp]
    · have hpn : ¬ parent = np := fun h => hnp h.symm
      simp [hnp, hpn, updChildren]

theorem insertDetach_children_at (t : HostTree) (node parent q : Nat) :
    (insertDetach node parent t).children q =
      match t.parent node with
      | some np =>
        if np ≠ parent ∧ q = np then
          jsSpliceRemoveOne (t.children np) (jsIndexOf (t.children np) node)
        else t.children q
      | none => t.children q := by
  unfold insertDetach
  cases hp : t.parent node with
  | none => rfl
  | some np =>
    by_cases hnp : np = parent
    · simp [hnp]
    · by_cases hqn : q = np
      · subst hqn
        simp [hnp, updChildren]
      · simp [hnp, hqn, updChildren]

theorem insert_children_at_other (t : HostTree) (node parent : Nat)
    (anchor : Option Nat) (q : Nat) (hq : q ≠ parent) :
    (insert node parent anchor t).children q
      = (insertDetach node parent t).children q := by
  simp only [insert]
  split <;> simp [updChildren, hq]

theorem count_jsSpliceInsert (l : List Nat) (s : Nat) (x : Nat) :
    (jsSpliceInsert l s x).count x = l.count x + 1 := by
  unfold jsSpliceInsert
  rw [List.count_append, List.count_cons_self, ← Nat.add_assoc]
  rw [← List.count_append, List.take_append_drop]

theorem insert_count_at_parent (t : HostTree) (node parent : Nat)
    (anchor : Option Nat) :
    ((insert node parent anchor t).children parent).count node
      = (t.children parent).count node + 1 := by
  have hL1 := insertDetach_children_parent t node parent
  simp only [insert]
  split
  · simp [updChildren, List.count_append, hL1]
  · simp [updChildren, count_jsSpliceInsert, hL1]

theorem insert_none_children_parent (t : HostTree) (node parent : Nat) :
    (insert node parent none t).children parent = t.children parent ++ [node] := by
  have hL1 := insertDetach_children_parent t node parent
  simp only [insert]
  simp [updChildren, hL1]

/-- C8: inserting a node that is not currently a child of `parent` at
the end of `parent`'s children and then removing it restores `parent`'s
children sequence exactly: every pre-existing child keeps its position
and identity. -/
theorem c8_insert_remove_roundtrip (t : HostTree) (node parent : Nat)
    (h : node ∉ t.children parent) :
    (remove node parent (insert node parent none t)).children parent
      = t.children parent := by
  have h1 := insert_none_children_parent t node parent
  unfold remove
  show (if parent = parent then _ else _) = _
  rw [if_pos rfl, h1]
  rw [jsSpliceRemoveOne_jsIndexOf node _ (by simp)]
  rw [List.erase_append_right _ h, List.erase_cons_head, List.append_nil]

def exTreeC8 : HostTree := ⟨fun _ => none, fun i => if i = 0 then [1, 2] else []⟩

/-- C8 witness: the round-trip theorem applied to a parent with children
[1, 2] and a fresh node 3. -/
theorem c8_insert_remove_roundtrip_witness :
    3 ∉ exTreeC8.children 0
    ∧ (remove 3 0 (insert 3 0 none exTreeC8)).children 0 = [1, 2] :=
  ⟨by decide, c8_insert_remove_roundtrip exTreeC8 3 0 (by decide)⟩

def exTreeC2 : HostTree :=
  ⟨fun i => if i = 1 then some 0 else none, fun i => if i = 0 then [1] else []⟩

/-- C2 counterexample: node 1 is already the sole child of parent 0;
insert(1, 0, null) skips the detach branch because the prior parent
equals the destination and pushes the node again, so the node occurs
twice in the children array instead of exactly once. -/
theorem c2_counterexample_duplicate_child :
    (insert 1 0 none exTreeC2).children 0 = [1, 1]
    ∧ ((insert 1 0 none exTreeC2).children 0).count 1 ≠ 1 :=
  ⟨by decide, by decide⟩

/-- C2 (amended): when the node's prior parent is null or differs from
the destination parent, insert detaches the node from the prior parent's
children and attaches it to the destination, so after the insert the
node occurs exactly once in the destination's children and in no other
children array.  (When the prior parent is the destination itself the
detach branch is skipped and the node is inserted a second time — see
the counterexample.) -/
theorem c2_insert_detaches_from_prior_parent
    (t : HostTree) (node parent : Nat) (anchor : Option Nat)
    (hpar : ∀ np, t.parent node = some np → np ≠ parent)
    (hcount : ∀ q, (t.children q).count node
      = if t.parent node = some q then 1 else 0) :
    ((insert node parent anchor t).children parent).count node = 1
    ∧ ∀ q, q ≠ parent → ((insert node parent anchor t).children q).count node = 0 := by
  constructor
  · rw [insert_count_at_parent t node parent anchor]
    have h0 : (t.children parent).count node = 0 := by
      have hc := hcount parent
      cases hp : t.parent node with
      | none => simpa [hp] using hc
      | some np =>
        have hnp : np ≠ parent := hpar np hp
        simpa [hp, hnp] using hc
    rw [h0]
  · intro q hq
    rw [insert_children_at_other t node parent anchor q hq,
        insertDetach_children_at t node parent q]
    cases hp : t.parent node with
    | none => simpa [hp] using hcount q
    | some np =>
      have hnp : np ≠ parent := hpar np hp
      by_cases hqn : q = np
      · subst hqn
        have h1 : (t.children q).count node = 1 := by simpa [hp] using hcount q
        have hmem : node ∈ t.children q := by
          rw [← List.count_pos_iff]
          omega
        show List.count node
          (if q ≠ parent ∧ q = q then
            jsSpliceRemoveOne (t.children q) (jsIndexOf (t.children q) node)
          else t.children q) = 0
        rw [if_pos (⟨hnp, rfl⟩ : q ≠ parent ∧ q = q)]
        rw [jsSpliceRemoveOne_jsIndexOf node _ hmem, List.count_erase_self]
        omega
      · have hcq := hcount q
        simp only [hp, Option.some_inj] at hcq
        have hnq : ¬ np = q := fun hh => hqn hh.symm
        rw [if_neg hnq] at hcq
        show List.count node
          (if np ≠ parent ∧ q = np then
            jsSpliceRemoveOne (t.children np) (jsIndexOf (t.children np) node)
          else t.children q) = 0
        rw [if_neg (fun hA => hqn (hA.2 : q = np))]
        exact hcq

/-- C2 witness: the amended theorem applied to a tree where node 1 is a
child of element 0 and is inserted under the different element 2. -/
theorem c2_insert_detaches_witness :
    ((insert 1 2 none exTreeC2).children 2).count 1 = 1
    ∧ ∀ q, q ≠ 2 → ((insert 1 2 none exTreeC2).children q).count 1 = 0 :=
  c2_insert_detaches_from_prior_parent exTreeC2 1 2 none
    (by intro np h; simp [exTreeC2] at h; omega)
    (by
      intro q
      by_cases hq : q = 0
      · subst hq; decide
      · have hq0 : ¬ (0 = q) := fun hh => hq hh.symm
        simp [exTreeC2, hq, hq0])

/-! ### Event listeners and dispatch (renderer.ts lines 113-115, 350-454)

Host nodes carry the `HostTypeKey` tag and the `HostEventListenersKey`
map from event type to an ordered set of listeners.  A listener is
identified by the JS function identity of its callback (`id`); the
`once` flag records that the stored function is the auto-removing
wrapper built by `addEventListener`; `action` models the only effects a
callback can have on propagation through the event proxy
(`stopPropagation` / `stopImmediatePropagation`). -/

inductive HostNodeType where
  | element
  | text
  | comment
  | raw
  | shadowRoot
deriving DecidableEq

inductive LAction where
  | normal
  | stopProp
  | stopImmediate
deriving DecidableEq

structure Listener where
  id : Nat
  once : Bool
  action : LAction
deriving DecidableEq

abbrev ListenerMap := List (String × List Listener)

structure HostNode where
  nodeType : HostNodeType
  listeners : ListenerMap
deriving DecidableEq

/-- Embeds `cloneNode` (renderer.ts lines 113-115): the function body is
`return node`, so the result is the argument itself. -/
def cloneNode (node : HostNode) : HostNode := node

def lookupListeners (m : ListenerMap) (t : String) : List Listener :=
  match m.find? (fun p => p.1 == t) with
  | some p => p.2
  | none => []

/-- Replaces (or creates) the listener set stored under an event type,
modelling assignment into `node[HostEventListenersKey][type]`. -/
def setListeners : ListenerMap → String → List Listener → ListenerMap
  | [], t, ls => [(t, ls)]
  | (k, v) :: rest, t, ls =>
    if k == t then (k, ls) :: rest else (k, v) :: setListeners rest t ls

structure EvOptions where
  capture : Bool
  once : Bool
deriving DecidableEq

/-- Embeds `addEventListener` (renderer.ts lines 350-388): non-element
nodes are ignored; a truthy capture option returns without registering;
a `once` option stores a fresh auto-removing wrapper (fresh closure, so
the `Set.add` always inserts a new member); otherwise the raw callback
is set-added, collapsing a duplicate registration of the same
function. -/
def addEventListener (node : HostNode) (etype : String) (cbId : Nat)
    (action : LAction) (options : Option EvOptions) : HostNode :=
  if node.nodeType ≠ HostNodeType.element then node
  else
    match options with
    | some o =>
      if o.capture then node
      else if o.once then
        let ls := lookupListeners node.listeners etype
        { node with listeners := setListeners node.listeners etype (ls ++ [⟨cbId, true, action⟩]) }
      else
        let ls := lookupListeners node.listeners etype
        if (⟨cbId, false, action⟩ : Listener) ∈ ls then node
        else { node with listeners := setListeners node.listeners etype (ls ++ [⟨cbId, false, action⟩]) }
    | none =>
      let ls := lookupListeners node.listeners etype
      if (⟨cbId, false, action⟩ : Listener) ∈ ls then node
      else { node with listeners := setListeners node.listeners etype (ls ++ [⟨cbId, false, action⟩]) }

/-- Embeds `removeEventListener` (renderer.ts lines 390-403): deleting
the caller's function from the per-type set can only hit an entry stored
as the raw callback, never a `once` wrapper. -/
def removeEventListener (node : HostNode) (etype : String) (cbId : Nat) : HostNode :=
  if node.nodeType ≠ HostNodeType.element then node
  else
    let deleteCb := fun (p : String × List Listener) =>
      if p.1 == etype then (p.1, p.2.eraseP (fun l => l.id == cbId && l.once == false)) else p
    { node with listeners := node.listeners.map deleteCb }

/-- The per-level listener loop of `dispatchEvent` (renderer.ts lines
437-443) together with the effect of the `once` wrappers: every listener
still runs unless `stopImmediatePropagation` was called; an invoked
listener may set the `stop`/`stopImmediately` flags through the proxy;
an invoked `once` wrapper removes itself from the set. -/
structure LevelResult where
  invoked : List Nat
  stop : Bool
  stopImmediately : Bool
  kept : List Listener

def processListeners (stop stopImm : Bool) : List Listener → LevelResult
  | [] => ⟨[], stop, stopImm, []⟩
  | l :: rest =>
    if stopImm then
      let r := processListeners stop stopImm rest
      ⟨r.invoked, r.stop, r.stopImmediately, l :: r.kept⟩
    else
      let stop1 := stop || (l.action != LAction.normal)
      let stopImm1 := stopImm || (l.action == LAction.stopImmediate)
      let r := processListeners stop1 stopImm1 rest
      ⟨l.id :: r.invoked, r.stop, r.stopImmediately, if l.once then r.kept else l :: r.kept⟩

/-- One iteration of the `dispatchEvent` walk at the current node:
only element nodes have their matching-type listeners invoked. -/
def processNode (etype : String) (node : HostNode) : List Nat × Bool × HostNode :=
  if node.nodeType = HostNodeType.element then
    let r := processListeners false false (lookupListeners node.listeners etype)
    (r.invoked, r.stop, { node with listeners := setListeners node.listeners etype r.kept })
  else ([], false, node)

/-- The do-while walk of `dispatchEvent` (renderer.ts lines 433-450)
over the ancestor chain (target first): process the current node, then
continue to the parent while propagation was not stopped and the parent
is not a shadow root with a non-composed event. -/
def dispatchChain (etype : String) (composed : Bool) :
    List HostNode → List Nat × List HostNode
  | [] => ([], [])
  | n :: rest =>
    let pr := processNode etype n
    match rest with
    | [] => (pr.1, [pr.2.2])
    | m :: _ =>
      if !pr.2.1 && (m.nodeType != HostNodeType.shadowRoot || composed) then
        let r := dispatchChain etype composed rest
        (pr.1 ++ r.1, pr.2.2 :: r.2)
      else (pr.1, pr.2.2 :: rest)

structure DispatchResult where
  invoked : List Nat
  chain : List HostNode
  result : Bool

/-- Embeds `dispatchEvent` (renderer.ts lines 406-454) over the ancestor
chain of the target (the target is the head, ancestors follow in parent
order).  A non-element target returns immediately; the return value is
always `true` because `preventDefault` is not supported. -/
def dispatchEvent (chain : List HostNode) (etype : String) (composed : Bool) :
    DispatchResult :=
  match chain with
  | [] => ⟨[], [], true⟩
  | target :: _ =>
    if target.nodeType ≠ HostNodeType.element then ⟨[], chain, true⟩
    else
      let r := dispatchChain etype composed chain
      ⟨r.1, r.2, true⟩

/-- The callback identities a node exposes to a dispatch of the given
event type (empty for non-element nodes). -/
def idsAt (etype : String) (n : HostNode) : List Nat :=
  if n.nodeType = HostNodeType.element then (lookupListeners n.listeners etype).map Listener.id
  else []

def idsIn (etype : String) (chain : List HostNode) : List Nat :=
  (chain.map (idsAt etype)).flatten

def notShadow (n : HostNode) : Bool := n.nodeType != HostNodeType.shadowRoot

/-- Whether processing this level sets the `stop` flag: an element level
holding some listener of the type that calls a stopping method. -/
def levelStops (etype : String) (n : HostNode) : Bool :=
  n.nodeType == HostNodeType.element
    && (lookupListeners n.listeners etype).any (fun l => l.action != LAction.normal)

/-- The chain prefix up to and including the first stopping level. -/
def takeThroughStop (etype : String) : List HostNode → List HostNode
  | [] => []
  | n :: rest =>
    if levelStops etype n then [n] else n :: takeThroughStop etype rest

/-- No listener of the given type anywhere in the chain stops
propagation. -/
@[reducible] def allNormal (etype : String) (chain : List HostNode) : Prop :=
  ∀ n ∈ chain, ∀ l ∈ lookupListeners n.listeners etype, l.action = LAction.normal

theorem processListeners_invoked_sub (s si : Bool) :
    ∀ ls : List Listener, ∀ i ∈ (processListeners s si ls).invoked,
      i ∈ ls.map Listener.id := by
  intro ls
  induction ls generalizing s si with
  | nil => intro i h; simp [processListeners] at h
  | cons l rest ih =>
    intro i h
    by_cases hsi : si
    · simp only [processListeners, hsi, if_true] at h
      exact List.mem_cons_of_mem _ (ih _ _ i (by simpa [hsi] using h))
    · simp only [processListeners, hsi, if_false] at h
      rcases List.mem_cons.mp h with h1 | h2
      · simp [h1]
      · exact List.mem_cons_of_mem _ (ih _ _ i h2)

theorem processListeners_stop_eq (s si : Bool) :
    ∀ ls : List Listener, (processListeners s si ls).stop
      = (s || (!si && ls.any (fun l => l.action != LAction.normal))) := by
  intro ls
  induction ls generalizing s si with
  | nil => simp [processListeners]
  | cons l rest ih =>
    by_cases hsi : si
    · simp [processListeners, hsi, ih]
    · simp only [processListeners, hsi, if_false, Bool.not_false, List.any_cons]
      rw [ih]
      cases  ha : l.action <;> cases s <;> simp only [ha, ih] <;> rfl

theorem processListeners_kept_sub (s si : Bool) :
    ∀ ls : List Listener, ∀ l ∈ (processListeners s si ls).kept, l ∈ ls := by
  intro ls
  induction ls generalizing s si with
  | nil => intro l h; simp [processListeners] at h
  | cons a rest ih =>
    intro l h
    by_cases hsi : si
    · simp only [processListeners, hsi, if_true] at h
      rcases List.mem_cons.mp h with h1 | h2
      · simp [h1]
      · exact List.mem_cons_of_mem _ (ih _ _ l h2)
    · simp only [processListeners, hsi, if_false] at h
      by_cases ho : a.once
      · simp only [ho, if_true] at h
        exact List.mem_cons_of_mem _ (ih _ _ l h)
      · simp only [ho, if_false] at h
        rcases List.mem_cons.mp h with h1 | h2
        · simp [h1]
        · exact List.mem_cons_of_mem _ (ih _ _ l h2)

theorem processListeners_allNormal_invoked (s : Bool) :
    ∀ ls : List Listener, (∀ l ∈ ls, l.action = LAction.normal) →
      (processListeners s false ls).invoked = ls.map Listener.id := by
  intro ls
  induction ls generalizing s with
  | nil => intro _; simp [processListeners]
  | cons l rest ih =>
    intro h
    have hl : l.action = LAction.normal := h l (List.mem_cons_self l rest)
    simp only [processListeners, if_false, Bool.false_eq_true, hl]
    simp only [List.map_cons, List.cons.injEq, true_and]
    exact ih _ (fun x hx => h x (List.mem_cons_of_mem _ hx))

theorem processListeners_append_once (entry : Listener) :
    ∀ (ls : List Listener) (s : Bool),
      (∀ l ∈ ls, l.action ≠ LAction.stopImmediate) →
      (processListeners s false (ls ++ [entry])).invoked
          = ls.map Listener.id ++ [entry.id]
      ∧ (entry.once = true →
          ∀ l ∈ (processListeners s false (ls ++ [entry])).kept, l ∈ ls) := by
  intro ls
  induction ls with
  | nil =>
    intro s _
    constructor
    · simp [processListeners]
    · intro ho l h
      simp only [List.nil_append, processListeners, if_false, Bool.false_eq_true, ho] at h
      simp [processListeners] at h
  | cons a rest ih =>
    intro s h
    have ha : a.action ≠ LAction.stopImmediate := h a (List.mem_cons_self a rest)
    have hai : (a.action == LAction.stopImmediate) = false := by
      cases haa : a.action <;> simp_all
    have hrest : ∀ l ∈ rest, l.action ≠ LAction.stopImmediate :=
      fun l hl => h l (List.mem_cons_of_mem _ hl)
    have ihr := ih (s || (a.action != LAction.normal)) hrest
    constructor
    · simp only [List.cons_append, processListeners, if_false, Bool.false_eq_true, hai,
        Bool.or_false]
      simp [ihr.1]
    · intro ho l hl
      simp only [List.cons_append, processListeners, if_false, Bool.false_eq_true, hai,
        Bool.or_false] at hl
      by_cases hao : a.once
      · simp only [hao, if_true] at hl
        exact List.mem_cons_of_mem _ (ihr.2 ho l hl)
      · simp only [hao, if_false] at hl
        rcases List.mem_cons.mp hl with h1 | h2
        · simp [h1]
        · exact List.mem_cons_of_mem _ (ihr.2 ho l h2)

theorem lookup_setListeners (t : String) (ls : List Listener) :
    ∀ m : ListenerMap, lookupListeners (setListeners m t ls) t = ls := by
  intro m
  induction m with
  | nil => simp [setListeners, lookupListeners]
  | cons p rest ih =>
    obtain ⟨k, v⟩ := p
    by_cases hk : k == t
    · simp [setListeners, lookupListeners, hk]
    · simp only [setListeners, hk, if_false, Bool.false_eq_true]
      simpa [lookupListeners, List.find?_cons, hk] using ih

theorem idsIn_cons (etype : String) (n : HostNode) (rest : List HostNode) :
    idsIn etype (n :: rest) = idsAt etype n ++ idsIn etype rest := by
  simp [idsIn]

theorem processNode_invoked_sub (etype : String) (n : HostNode) :
    ∀ i ∈ (processNode etype n).1, i ∈ idsAt etype n := by
  intro i h
  unfold processNode at h
  by_cases hn : n.nodeType = HostNodeType.element
  · simp only [hn, if_pos, ite_true] at h
    unfold idsAt
    rw [if_pos hn]
    exact processListeners_invoked_sub false false _ i h
  · simp [hn] at h

theorem processNode_stop (etype : String) (n : HostNode) :
    (processNode etype n).2.1 = levelStops etype n := by
  unfold processNode levelStops
  by_cases hn : n.nodeType = HostNodeType.element
  · simp [hn, processListeners_stop_eq]
  · have hb : (n.nodeType == HostNodeType.element) = false := by
      simp [hn]
    simp [hn, hb]

theorem processNode_nodeType (etype : String) (n : HostNode) :
    (processNode etype n).2.2.nodeType = n.nodeType := by
  unfold processNode
  split <;> rfl

theorem processNode_ids_sub (etype : String) (n : HostNode) :
    ∀ i ∈ idsAt etype (processNode etype n).2.2, i ∈ idsAt etype n := by
  intro i h
  unfold processNode at h
  by_cases hn : n.nodeType = HostNodeType.element
  · simp only [hn, ite_true] at h
    unfold idsAt at h
    simp only [hn, ite_true] at h
    rw [lookup_setListeners] at h
    obtain ⟨l, hl, hid⟩ := List.mem_map.mp h
    unfold idsAt
    rw [if_pos hn]
    exact List.mem_map.mpr ⟨l, processListeners_kept_sub false false _ l hl, hid⟩
  · simp only [hn, ite_false] at h
    exact h

theorem processNode_allNormal (etype : String) (n : HostNode)
    (h : ∀ l ∈ lookupListeners n.listeners etype, l.action = LAction.normal) :
    (processNode etype n).1 = idsAt etype n ∧ (processNode etype n).2.1 = false := by
  unfold processNode idsAt
  by_cases hn : n.nodeType = HostNodeType.element
  · simp only [hn, ite_true]
    refine ⟨processListeners_allNormal_invoked false _ h, ?_⟩
    rw [processListeners_stop_eq]
    simp only [Bool.false_or, Bool.not_false, Bool.true_and]
    rw [List.any_eq_false]
    intro l hl
    simp [h l hl]
  · simp [hn]

theorem dispatchChain_cons_nil (etype : String) (composed : Bool) (n : HostNode) :
    dispatchChain etype composed [n] = ((processNode etype n).1, [(processNode etype n).2.2]) :=
  rfl

theorem dispatchChain_cons_cons (etype : String) (composed : Bool)
    (n m : HostNode) (rest2 : List HostNode) :
    dispatchChain etype composed (n :: m :: rest2)
      = if !(processNode etype n).2.1 && (m.nodeType != HostNodeType.shadowRoot || composed) then
          ((processNode etype n).1 ++ (dispatchChain etype composed (m :: rest2)).1,
            (processNode etype n).2.2 :: (dispatchChain etype composed (m :: rest2)).2)
        else ((processNode etype n).1, (processNode etype n).2.2 :: m :: rest2) :=
  rfl

theorem dispatchChain_invoked_sub (etype : String) (composed : Bool) :
    ∀ chain : List HostNode, ∀ i ∈ (dispatchChain etype composed chain).1,
      i ∈ idsIn etype chain := by
  intro chain
  induction chain with
  | nil => intro i h; simp [dispatchChain] at h
  | cons n rest ih =>
    intro i h
    rw [idsIn_cons]
    cases rest with
    | nil =>
      simp only [dispatchChain] at h
      exact List.mem_append_left _ (processNode_invoked_sub etype n i h)
    | cons m rest2 =>
      simp only [dispatchChain] at h
      split at h
      · rcases List.mem_append.mp h with h1 | h2
        · exact List.mem_append_left _ (processNode_invoked_sub etype n i h1)
        · exact List.mem_append_right _ (ih i h2)
      · exact List.mem_append_left _ (processNode_invoked_sub etype n i h)

theorem dispatchChain_chain_ids_sub (etype : String) (composed : Bool) :
    ∀ chain : List HostNode, ∀ i ∈ idsIn etype (dispatchChain etype composed chain).2,
      i ∈ idsIn etype chain := by
  intro chain
  induction chain with
  | nil => intro i h; simp [dispatchChain, idsIn] at h
  | cons n rest ih =>
    intro i h
    rw [idsIn_cons]
    cases rest with
    | nil =>
      simp only [dispatchChain] at h
      rw [idsIn_cons] at h
      rcases List.mem_append.mp h with h1 | h1
      · exact List.mem_append_left _ (processNode_ids_sub etype n i h1)
      · simp [idsIn] at h1
    | cons m rest2 =>
      simp only [dispatchChain] at h
      split at h
      · rw [idsIn_cons] at h
        rcases List.mem_append.mp h with h1 | h2
        · exact List.mem_append_left _ (processNode_ids_sub etype n i h1)
        · exact List.mem_append_right _ (ih i h2)
      · rw [idsIn_cons] at h
        rcases List.mem_append.mp h with h1 | h2
        · exact List.mem_append_left _ (processNode_ids_sub etype n i h1)
        · exact List.mem_append_right _ h2

/-- The callback identities reachable by a non-composed dispatch: those
of the head (target) level plus those of the following levels up to the
first shadow-root boundary. -/
def headPlusUnshadowed (etype : String) : List HostNode → List Nat
  | [] => []
  | n :: rest => idsAt etype n ++ idsIn etype (rest.takeWhile notShadow)

theorem dispatchChain_false_sub (etype : String) :
    ∀ chain : List HostNode, ∀ i ∈ (dispatchChain etype false chain).1,
      i ∈ headPlusUnshadowed etype chain := by
  intro chain
  induction chain with
  | nil => intro i h; simp [dispatchChain] at h
  | cons n rest ih =>
    intro i h
    cases rest with
    | nil =>
      simp only [dispatchChain] at h
      exact List.mem_append_left _ (processNode_invoked_sub etype n i h)
    | cons m rest2 =>
      simp only [dispatchChain] at h
      split at h
      · rename_i hguard
        have hm : notShadow m = true := by
          have h2 := (Bool.and_eq_true _ _).mp hguard |>.2
          simpa [notShadow] using h2
        rcases List.mem_append.mp h with h1 | h2
        · exact List.mem_append_left _ (processNode_invoked_sub etype n i h1)
        · have hrec := ih i h2
          unfold headPlusUnshadowed at hrec
          refine List.mem_append_right _ ?_
          rw [List.takeWhile_cons_of_pos hm, idsIn_cons]
          exact hrec
      · exact List.mem_append_left _ (processNode_invoked_sub etype n i h)

theorem dispatchChain_true_allNormal (etype : String) :
    ∀ chain : List HostNode, allNormal etype chain →
      (dispatchChain etype true chain).1 = idsIn etype chain := by
  intro chain
  induction chain with
  | nil => simp [dispatchChain, idsIn]
  | cons n rest ih =>
    intro h
    have hn := processNode_allNormal etype n
      (fun l hl => h n (List.mem_cons_self n rest) l hl)
    have hrest : allNormal etype rest :=
      fun x hx l hl => h x (List.mem_cons_of_mem _ hx) l hl
    cases rest with
    | nil =>
      simp only [dispatchChain]
      rw [hn.1, idsIn_cons]
      simp [idsIn]
    | cons m rest2 =>
      rw [dispatchChain_cons_cons]
      rw [if_pos (by simp [hn.2])]
      show (processNode etype n).1 ++ (dispatchChain etype true (m :: rest2)).1 = _
      rw [hn.1, ih hrest]
      simp [idsIn_cons]

theorem dispatchChain_stop_sub (etype : String) (composed : Bool) :
    ∀ chain : List HostNode, ∀ i ∈ (dispatchChain etype composed chain).1,
      i ∈ idsIn etype (takeThroughStop etype chain) := by
  intro chain
  induction chain with
  | nil => intro i h; simp [dispatchChain] at h
  | cons n rest ih =>
    intro i h
    have hhead : ∀ j ∈ idsAt etype n, j ∈ idsIn etype (takeThroughStop etype (n :: rest)) := by
      intro j hj
      unfold takeThroughStop
      by_cases hs : levelStops etype n
      · rw [if_pos hs, idsIn_cons]
        exact List.mem_append_left _ hj
      · rw [if_neg hs, idsIn_cons]
        exact List.mem_append_left _ hj
    cases rest with
    | nil =>
      simp only [dispatchChain] at h
      exact hhead i (processNode_invoked_sub etype n i h)
    | cons m rest2 =>
      simp only [dispatchChain] at h
      split at h
      · rename_i hguard
        have hstop : (processNode etype n).2.1 = false := by
          have h1 := (Bool.and_eq_true _ _).mp hguard |>.1
          simpa using h1
        have hls : levelStops etype n = false := by
          rw [← processNode_stop etype n]
          exact hstop
        rcases List.mem_append.mp h with h1 | h2
        · exact hhead i (processNode_invoked_sub etype n i h1)
        · unfold takeThroughStop
          rw [if_neg (by simp [hls]), idsIn_cons]
          exact List.mem_append_right _ (ih i h2)
      · exact hhead i (processNode_invoked_sub etype n i h)

theorem dispatchEvent_cons (etype : String) (composed : Bool)
    (t : HostNode) (rest : List HostNode) :
    dispatchEvent (t :: rest) etype composed
      = if t.nodeType ≠ HostNodeType.element then ⟨[], t :: rest, true⟩
        else ⟨(dispatchChain etype composed (t :: rest)).1,
              (dispatchChain etype composed (t :: rest)).2, true⟩ := rfl

/-- C5: dispatchEvent always reports not-cancelled (returns true); with
composed = false every invoked listener lies at or below the first
shadow-root boundary above the target, so no listener above the boundary
is ever invoked; with composed = true and no stopping listener, the
matching listeners of every element level of the whole ancestor chain —
including those past shadow-root boundaries — are invoked; and in every
dispatch the invoked listeners lie within the chain prefix that ends at
the first level containing a listener that stops propagation. -/
theorem c5_dispatchEvent_propagation :
    ∀ (chain : List HostNode) (etype : String) (composed : Bool),
      (dispatchEvent chain etype composed).result = true
      ∧ (composed = false →
          ∀ i ∈ (dispatchEvent chain etype composed).invoked,
            i ∈ idsIn etype (chain.takeWhile notShadow))
      ∧ (composed = true → allNormal etype chain →
          ∀ (target : HostNode) (rest : List HostNode), chain = target :: rest →
            target.nodeType = HostNodeType.element →
            (dispatchEvent chain etype composed).invoked = idsIn etype chain)
      ∧ (∀ i ∈ (dispatchEvent chain etype composed).invoked,
          i ∈ idsIn etype (takeThroughStop etype chain)) := by
  intro chain etype composed
  refine ⟨?_, ?_, ?_, ?_⟩
  · cases chain with
    | nil => rfl
    | cons t rest =>
      rw [dispatchEvent_cons]
      split <;> rfl
  · intro hc i h
    subst hc
    cases chain with
    | nil => simp [dispatchEvent] at h
    | cons t rest =>
      rw [dispatchEvent_cons] at h
      by_cases ht : t.nodeType = HostNodeType.element
      · rw [if_neg (not_not_intro ht)] at h
        have hsub := dispatchChain_false_sub etype (t :: rest) i h
        unfold headPlusUnshadowed at hsub
        have hts : notShadow t = true := by simp [notShadow, ht]
        rw [List.takeWhile_cons_of_pos hts, idsIn_cons]
        exact hsub
      · rw [if_pos ht] at h
        simp at h
  · intro hc hall target rest hchain ht
    subst hc
    subst hchain
    rw [dispatchEvent_cons, if_neg (not_not_intro ht)]
    exact dispatchChain_true_allNormal etype (target :: rest) hall
  · intro i h
    cases chain with
    | nil => simp [dispatchEvent] at h
    | cons t rest =>
      rw [dispatchEvent_cons] at h
      by_cases ht : t.nodeType = HostNodeType.element
      · rw [if_neg (not_not_intro ht)] at h
        exact dispatchChain_stop_sub etype composed (t :: rest) i h
      · rw [if_pos ht] at h
        simp at h

/-- A three-level chain: target element (listener 1) inside a shadow
root whose host side carries another element (listener 2). -/
def exChain : List HostNode :=
  [⟨.element, [("click", [⟨1, false, .normal⟩])]⟩,
   ⟨.shadowRoot, []⟩,
   ⟨.element, [("click", [⟨2, false, .normal⟩])]⟩]

/-- C5 witness: the propagation theorem applied to the three-level
chain, with composed=false and composed=true dispatches. -/
theorem c5_dispatchEvent_propagation_witness :
    (dispatchEvent exChain "click" false).result = true
    ∧ (∀ i ∈ (dispatchEvent exChain "click" false).invoked,
        i ∈ idsIn "click" (exChain.takeWhile notShadow))
    ∧ (dispatchEvent exChain "click" true).invoked = idsIn "click" exChain
    ∧ (∀ i ∈ (dispatchEvent exChain "click" true).invoked,
        i ∈ idsIn "click" (takeThroughStop "click" exChain)) :=
  ⟨(c5_dispatchEvent_propagation exChain "click" false).1,
   (c5_dispatchEvent_propagation exChain "click" false).2.1 rfl,
   (c5_dispatchEvent_propagation exChain "click" true).2.2.1 rfl (by decide) _ _ rfl rfl,
   (c5_dispatchEvent_propagation exChain "click" true).2.2.2⟩

/-- C10: cloneNode returns its argument itself — the same node object,
not a copy — so mutations of the returned node are mutations of the
original and no new node is allocated. -/
theorem c10_cloneNode_identity : ∀ node : HostNode, cloneNode node = node :=
  fun _ => rfl

theorem dispatchEvent_invoked_sub (etype : String) (composed : Bool) :
    ∀ chain : List HostNode, ∀ i ∈ (dispatchEvent chain etype composed).invoked,
      i ∈ idsIn etype chain := by
  intro chain i h
  cases chain with
  | nil => simp [dispatchEvent] at h
  | cons t rest =>
    rw [dispatchEvent_cons] at h
    by_cases ht : t.nodeType = HostNodeType.element
    · rw [if_neg (not_not_intro ht)] at h
      exact dispatchChain_invoked_sub etype composed (t :: rest) i h
    · rw [if_pos ht] at h
      simp at h

theorem dispatchChain_cons_split (etype : String) (composed : Bool)
    (n : HostNode) (rest : List HostNode) :
    ∃ (tailInv : List Nat) (rest2 : List HostNode),
      (dispatchChain etype composed (n :: rest)).1 = (processNode etype n).1 ++ tailInv
      ∧ (∀ i ∈ tailInv, i ∈ idsIn etype rest)
      ∧ (dispatchChain etype composed (n :: rest)).2 = (processNode etype n).2.2 :: rest2
      ∧ (∀ i ∈ idsIn etype rest2, i ∈ idsIn etype rest) := by
  cases rest with
  | nil =>
    refine ⟨[], [], ?_, ?_, ?_, ?_⟩
    · simp [dispatchChain_cons_nil]
    · simp
    · simp [dispatchChain_cons_nil]
    · simp [idsIn]
  | cons m rest2 =>
    by_cases hguard :
        (!(processNode etype n).2.1 && (m.nodeType != HostNodeType.shadowRoot || composed)) = true
    · have heq := dispatchChain_cons_cons etype composed n m rest2
      rw [if_pos hguard] at heq
      refine ⟨(dispatchChain etype composed (m :: rest2)).1,
              (dispatchChain etype composed (m :: rest2)).2, ?_, ?_, ?_, ?_⟩
      · rw [heq]
      · exact dispatchChain_invoked_sub etype composed (m :: rest2)
      · rw [heq]
      · exact dispatchChain_chain_ids_sub etype composed (m :: rest2)
    · have heq := dispatchChain_cons_cons etype composed n m rest2
      rw [if_neg hguard] at heq
      refine ⟨[], m :: rest2, ?_, ?_, ?_, ?_⟩
      · rw [heq, List.append_nil]
      · simp
      · rw [heq]
      · intro i h
        exact h

/-- C6 (amended): a listener registered with once = true on an element
node fires exactly once across two successive dispatches of its event
type at that node, provided the callback identity is fresh for the chain
and no listener already registered for that type on the node calls
stopImmediatePropagation (such a listener would prevent the once
listener from ever running, see the counterexample). -/
theorem c6_once_listener_fires_once
    (node : HostNode) (rest : List HostNode) (etype : String)
    (cbId : Nat) (act : LAction) (composed : Bool)
    (hel : node.nodeType = HostNodeType.element)
    (hfresh : cbId ∉ idsIn etype (node :: rest))
    (hstop : ∀ l ∈ lookupListeners node.listeners etype,
      l.action ≠ LAction.stopImmediate) :
    (((dispatchEvent
          (addEventListener node etype cbId act (some ⟨false, true⟩) :: rest)
          etype composed).invoked)
      ++ ((dispatchEvent
            (dispatchEvent
              (addEventListener node etype cbId act (some ⟨false, true⟩) :: rest)
              etype composed).chain
            etype composed).invoked)).count cbId = 1 := by
  set ls := lookupListeners node.listeners etype with hls
  set node1 := addEventListener node etype cbId act (some ⟨false, true⟩) with hnode1
  have hn1 : node1 = { node with listeners := setListeners node.listeners etype (ls ++ [⟨cbId, true, act⟩]) } := by
    rw [hnode1]
    unfold addEventListener
    rw [if_neg (not_not_intro hel)]
    rfl
  have hlook : lookupListeners node1.listeners etype = ls ++ [⟨cbId, true, act⟩] := by
    rw [hn1]
    exact lookup_setListeners etype _ node.listeners
  have hnt1 : node1.nodeType = HostNodeType.element := by rw [hn1]; exact hel
  have happ := processListeners_append_once ⟨cbId, true, act⟩ ls false hstop
  have hpn1 : (processNode etype node1).1 = ls.map Listener.id ++ [cbId] := by
    unfold processNode
    rw [if_pos hnt1, hlook]
    exact happ.1
  have hpn_ids : ∀ i ∈ idsAt etype (processNode etype node1).2.2,
      i ∈ ls.map Listener.id := by
    intro i h
    unfold processNode at h
    rw [if_pos hnt1] at h
    unfold idsAt at h
    simp only [hnt1, ite_true] at h
    rw [lookup_setListeners] at h
    obtain ⟨l, hl, hid⟩ := List.mem_map.mp h
    rw [hlook] at hl
    exact List.mem_map.mpr ⟨l, happ.2 rfl l hl, hid⟩
  have hfresh_node : cbId ∉ ls.map Listener.id := by
    intro hmem
    apply hfresh
    rw [idsIn_cons]
    refine List.mem_append_left _ ?_
    unfold idsAt
    rw [if_pos hel]
    exact hmem
  have hfresh_rest : cbId ∉ idsIn etype rest := by
    intro hmem
    exact hfresh (by rw [idsIn_cons]; exact List.mem_append_right _ hmem)
  obtain ⟨tailInv, rest2, hs1, hs2, hs3, hs4⟩ :=
    dispatchChain_cons_split etype composed node1 rest
  have hd1 : dispatchEvent (node1 :: rest) etype composed
      = ⟨(dispatchChain etype composed (node1 :: rest)).1,
         (dispatchChain etype composed (node1 :: rest)).2, true⟩ := by
    rw [dispatchEvent_cons, if_neg (not_not_intro hnt1)]
  have hcount1 : ((dispatchEvent (node1 :: rest) etype composed).invoked).count cbId = 1 := by
    rw [hd1]
    show ((dispatchChain etype composed (node1 :: rest)).1).count cbId = 1
    rw [hs1, hpn1, List.count_append, List.count_append]
    rw [List.count_eq_zero.mpr hfresh_node]
    rw [List.count_eq_zero.mpr (fun hmem => hfresh_rest (hs2 cbId hmem))]
    simp
  have hcount2 : ((dispatchEvent
      (dispatchEvent (node1 :: rest) etype composed).chain etype composed).invoked).count cbId = 0 := by
    rw [List.count_eq_zero]
    intro hmem
    have hsub := dispatchEvent_invoked_sub etype composed
      (dispatchEvent (node1 :: rest) etype composed).chain cbId hmem
    rw [hd1] at hsub
    have hsub2 : cbId ∈ idsIn etype ((processNode etype node1).2.2 :: rest2) := by
      rw [← hs3]
      exact hsub
    rw [idsIn_cons] at hsub2
    rcases List.mem_append.mp hsub2 with h1 | h2
    · exact hfresh_node (hpn_ids cbId h1)
    · exact hfresh_rest (hs4 cbId h2)
  rw [List.count_append, hcount1, hcount2]

def exNodeC6 : HostNode := ⟨.element, [("click", [⟨9, false, .stopImmediate⟩])]⟩

def exC6Reg : HostNode :=
  addEventListener exNodeC6 "click" 1 LAction.normal (some ⟨false, true⟩)

def exC6D1 : DispatchResult := dispatchEvent [exC6Reg] "click" false

def exC6D2 : DispatchResult := dispatchEvent exC6D1.chain "click" false

/-- C6 counterexample: the node already holds a listener that calls
stopImmediatePropagation, so the once listener registered after it is
skipped (and not removed) in both dispatches: it fires zero times across
the two dispatches, not exactly once. -/
theorem c6_counterexample_starved_once_listener :
    (exC6D1.invoked ++ exC6D2.invoked).count 1 = 0
    ∧ ¬ (exC6D1.invoked ++ exC6D2.invoked).count 1 = 1 := by
  refine ⟨by decide, by decide⟩

def exNodeC6ok : HostNode := ⟨.element, [("click", [⟨5, false, .stopProp⟩])]⟩

/-- C6 witness: the amended theorem applied to a node whose existing
listener merely calls stopPropagation (which does not skip same-level
listeners), with one further ancestor element in the chain. -/
theorem c6_once_listener_fires_once_witness :
    (((dispatchEvent
          (addEventListener exNodeC6ok "click" 1 LAction.normal (some ⟨false, true⟩)
            :: [⟨.element, [("click", [⟨7, false, .normal⟩])]⟩])
          "click" false).invoked)
      ++ ((dispatchEvent
            (dispatchEvent
              (addEventListener exNodeC6ok "click" 1 LAction.normal (some ⟨false, true⟩)
                :: [⟨.element, [("click", [⟨7, false, .normal⟩])]⟩])
              "click" false).chain
            "click" false).invoked)).count 1 = 1 :=
  c6_once_listener_fires_once exNodeC6ok
    [⟨.element, [("click", [⟨7, false, .normal⟩])]⟩] "click" 1 LAction.normal false
    rfl (by decide) (by decide)

/-! ### Template compilation entry point (ssr-compiler `compileTemplate`)

`compileTemplate` receives the external parser's result — an optional
root plus warnings carrying `DiagnosticLevel`s — and throws a
compilation-failure error for a null root or any Fatal/Error warning;
otherwise it lowers the root to generated code.  The lowering tail
(`templateIrToEsTree`, program assembly, `transmogrify`) is abstracted
as the `gen` parameter, which the failure-policy claim does not
inspect. -/

inductive DiagnosticLevel where
  | fatal
  | error
  | warning
  | log
deriving DecidableEq

structure TemplateWarning where
  level : DiagnosticLevel
  message : String
deriving DecidableEq

structure ParseResult (α : Type) where
  root : Option α
  warnings : List TemplateWarning

/-- Embeds `compileTemplate` (part_000 lines 110-176, failure policy in
lines 133-149): when the root is null or warnings exist, fold over the
warnings setting the `fatal` flag (initially `!root`) on any Fatal or
Error level, and throw when the flag (or a null root) holds; otherwise
generate code from the root. -/
def compileTemplate {α β : Type} (pr : ParseResult α) (gen : α → β) : Except String β :=
  if pr.root.isNone || !pr.warnings.isEmpty then
    let fatal := pr.warnings.foldl
      (fun f w =>
        if w.level == DiagnosticLevel.fatal || w.level == DiagnosticLevel.error then true
        else f)
      pr.root.isNone
    if fatal || pr.root.isNone then
      Except.error "Template compilation failure; see warnings in the console."
    else
      match pr.root with
      | some root => Except.ok (gen root)
      | none => Except.error "Template compilation failure; see warnings in the console."
  else
    match pr.root with
    | some root => Except.ok (gen root)
    | none => Except.error "Template compilation failure; see warnings in the console."

def isFatalOrError (w : TemplateWarning) : Bool :=
  w.level == DiagnosticLevel.fatal || w.level == DiagnosticLevel.error

theorem foldl_fatal_eq :
    ∀ (l : List TemplateWarning) (b : Bool),
      l.foldl (fun f w =>
        if w.level == DiagnosticLevel.fatal || w.level == DiagnosticLevel.error then true
        else f) b
      = (b || l.any isFatalOrError) := by
  intro l
  induction l with
  | nil => intro b; simp
  | cons w rest ih =>
    intro b
    simp only [List.foldl_cons, List.any_cons]
    by_cases hw : (w.level == DiagnosticLevel.fatal || w.level == DiagnosticLevel.error) = true
    · rw [if_pos hw, ih]
      simp [isFatalOrError, hw]
    · rw [if_neg hw, ih]
      simp only [isFatalOrError]
      rw [Bool.eq_false_iff.mpr hw]
      simp

/-- C7: template compilation fails exactly when the parser returned a
null root or some warning has Fatal or Error severity; in every other
case (no warnings, or only lower-severity warnings) compilation
succeeds and produces the generated code for the root. -/
theorem c7_compileTemplate_failure_iff :
    ∀ {α β : Type} (pr : ParseResult α) (gen : α → β),
      ((∃ e, compileTemplate pr gen = Except.error e)
        ↔ (pr.root = none
            ∨ ∃ w ∈ pr.warnings,
                w.level = DiagnosticLevel.fatal ∨ w.level = DiagnosticLevel.error))
      ∧ (∀ root, pr.root = some root →
          (∀ w ∈ pr.warnings,
            w.level ≠ DiagnosticLevel.fatal ∧ w.level ≠ DiagnosticLevel.error) →
          compileTemplate pr gen = Except.ok (gen root)) := by
  intro α β pr gen
  have hany : pr.warnings.any isFatalOrError = true
      ↔ ∃ w ∈ pr.warnings,
          w.level = DiagnosticLevel.fatal ∨ w.level = DiagnosticLevel.error := by
    rw [List.any_eq_true]
    constructor
    · rintro ⟨w, hw, hfe⟩
      exact ⟨w, hw, by simpa [isFatalOrError] using hfe⟩
    · rintro ⟨w, hw, hfe⟩
      exact ⟨w, hw, by simpa [isFatalOrError] using hfe⟩
  constructor
  · cases hr : pr.root with
    | none =>
      constructor
      · intro _
        exact Or.inl rfl
      · intro _
        refine ⟨"Template compilation failure; see warnings in the console.", ?_⟩
        unfold compileTemplate
        rw [hr]
        simp [foldl_fatal_eq]
    | some root =>
      by_cases hw : pr.warnings.isEmpty
      · have hwnil : pr.warnings = [] := List.isEmpty_iff.mp hw
        unfold compileTemplate
        rw [hr, hwnil]
        simp
      · by_cases hf : pr.warnings.any isFatalOrError = true
        · constructor
          · intro _
            exact Or.inr (hany.mp hf)
          · intro _
            refine ⟨"Template compilation failure; see warnings in the console.", ?_⟩
            unfold compileTemplate
            rw [hr]
            simp only [Option.isNone_some, Bool.false_or, foldl_fatal_eq, hf, Bool.or_true,
              Bool.true_or, ite_true, hw]
            simp [hw]
        · unfold compileTemplate
          rw [hr]
          simp only [Option.isNone_some, Bool.false_or, foldl_fatal_eq, hf, Bool.or_false]
          constructor
          · intro hex
            rcases hex with ⟨e, he⟩
            by_cases hwe : pr.warnings.isEmpty <;> simp [hwe] at he
          · intro hor
            rcases hor with h1 | h2
            · cases h1
            · exact absurd (hany.mpr h2) hf
  · intro root hroot hnofatal
    have hf : pr.warnings.any isFatalOrError = false := by
      rw [← Bool.not_eq_true]
      intro hc
      obtain ⟨w, hw, hfe⟩ := hany.mp hc
      rcases hfe with h1 | h1
      · exact (hnofatal w hw).1 h1
      · exact (hnofatal w hw).2 h1
    unfold compileTemplate
    rw [hroot]
    by_cases hwe : pr.warnings.isEmpty
    · simp [hwe]
    · simp only [foldl_fatal_eq]
      simp [hwe, hf]

/-- C7 witness: failure iff applied to a parse result with one
Warning-level and one Error-level diagnostic, and success applied to a
parse result with a single Warning-level diagnostic. -/
theorem c7_compileTemplate_failure_iff_witness :
    ((∃ e, compileTemplate
        (⟨some 0, [⟨DiagnosticLevel.warning, "w"⟩, ⟨DiagnosticLevel.error, "e"⟩]⟩ :
          ParseResult Nat) (fun r => r + 1) = Except.error e)
      ↔ ((some 0 : Option Nat) = none
          ∨ ∃ w ∈ [(⟨DiagnosticLevel.warning, "w"⟩ : TemplateWarning),
                    ⟨DiagnosticLevel.error, "e"⟩],
              w.level = DiagnosticLevel.fatal ∨ w.level = DiagnosticLevel.error))
    ∧ compileTemplate
        (⟨some 0, [⟨DiagnosticLevel.warning, "w"⟩]⟩ : ParseResult Nat)
        (fun r => r + 1) = Except.ok 1 :=
  ⟨(c7_compileTemplate_failure_iff
      (⟨some 0, [⟨DiagnosticLevel.warning, "w"⟩, ⟨DiagnosticLevel.error, "e"⟩]⟩ :
        ParseResult Nat) (fun r => r + 1)).1,
   (c7_compileTemplate_failure_iff
      (⟨some 0, [⟨DiagnosticLevel.warning, "w"⟩]⟩ : ParseResult Nat)
      (fun r => r + 1)).2 0 rfl (by decide)⟩

/-! ### Child attribute/property lowering (ssr-compiler `Component`
transformer, `getChildAttrsOrProps`)

The IR attribute values the lowering recognizes: string literals,
boolean literals, and identifier/member expressions (any other shape
raises the unimplemented-node-type error, outside this claim).  The
produced object property is keyed by the attribute name (the
`isValidIdentifier` choice between identifier and string keys does not
change the key text) and carries either a literal or a lowered
expression. -/

inductive IrAttrType where
  | attribute
  | property
deriving DecidableEq

inductive IrAttrValue where
  | litStr (s : String)
  | litBool (b : Bool)
  | ident (name : String)
  | member (obj prop : String)
deriving DecidableEq

structure IrAttr where
  name : String
  value : IrAttrValue
  type : IrAttrType
deriving DecidableEq

inductive PropValue where
  | strVal (s : String)
  | boolVal (b : Bool)
  | exprVal (e : IrAttrValue)
deriving DecidableEq

structure AttrProperty where
  key : String
  value : PropValue
deriving DecidableEq

/-- Modelled from the spec: `normalizeStyleAttributeValue`
(`@lwc/shared`) is not among the sources; following the spec's
style-string normalizer description it splits on semicolons, trims the
declarations and rejoins them. -/
def normalizeStyleAttributeValue (s : String) : String :=
  String.intercalate "; " (((s.split (fun c => c = ';')).map String.trim).filter
    (fun d => d ≠ ""))

/-- Modelled from the spec: `normalizeClassAttributeValue`
(`../shared`) is not among the sources; following the spec's class-list
normalizer description it collapses whitespace through the token
list. -/
def normalizeClassAttributeValue (s : String) : String :=
  tokenListToClassName (classNameToTokenList s)

/-- Embeds the per-attribute body of `getChildAttrsOrProps` (part_000
lines 276-301): string literals get `style`/`class` canonicalization
(an empty normalized `class` is elided), boolean literals are elided
for `class` and otherwise rendered as the empty string for attributes
and the raw boolean for properties (line 295), and expressions are
lowered to runtime references. -/
def getChildAttrsOrProp (a : IrAttr) : Option AttrProperty :=
  match a.value with
  | .litStr s =>
    if a.name == "style" then
      some ⟨a.name, .strVal (normalizeStyleAttributeValue s)⟩
    else if a.name == "class" then
      let literalValue := normalizeClassAttributeValue s
      if literalValue == "" then none
      else some ⟨a.name, .strVal literalValue⟩
    else some ⟨a.name, .strVal s⟩
  | .litBool b =>
    if a.name == "class" then none
    else some ⟨a.name, if a.type == IrAttrType.attribute then .strVal "" else .boolVal b⟩
  | v => some ⟨a.name, .exprVal v⟩

/-- Embeds `getChildAttrsOrProps` (part_000 lines 272-305): map the
per-attribute transform and drop the elided entries
(`.filter(Boolean)`). -/
def getChildAttrsOrProps (attrs : List IrAttr) : List AttrProperty :=
  attrs.filterMap getChildAttrsOrProp

/-- Embeds the boolean-attribute branch of `setProperty` (renderer.ts
lines 214-219), reached when `isBooleanAttribute(attrName, tagName)`
holds (the classifier lives in `@lwc/shared`, outside the sources):
`value === true` sets the attribute to the empty string, any other
value removes the attribute (the namespace argument is omitted in both
calls). -/
def setPropertyBooleanAttr (element : AttrElement) (attrName : String)
    (value : JSVal) : AttrElement :=
  if value = JSVal.boolean true then setAttribute element attrName (.str "") none
  else removeAttribute element attrName none

/-- C3 counterexample: an attribute classified as a boolean literal with
value false is lowered by getChildAttrsOrProps to an empty-string
presence marker — the attribute is rendered present, not absent. -/
theorem c3_counterexample_false_renders_present :
    getChildAttrsOrProps [⟨"disabled", .litBool false, .attribute⟩]
      = [⟨"disabled", .strVal ""⟩]
    ∧ getChildAttrsOrProps [⟨"disabled", .litBool false, .attribute⟩] ≠ [] := by
  refine ⟨by decide, by decide⟩

theorem removeAttribute_undefined_ns_absent (e : AttrElement) (attrName : String) :
    getAttribute (removeAttribute e attrName none) attrName none = none := by
  unfold getAttribute removeAttribute
  rw [List.find?_eq_none.mpr]
  intro a ha
  have hkeep := List.of_mem_filter ha
  simp only [Bool.and_eq_true, bne_iff_ne] at hkeep
  simp [keyP, hkeep.1]

/-- C3 (amended): a boolean-classified attribute value is never rendered
as the string "false" (nor "true").  In getChildAttrsOrProps, a boolean
literal attribute other than class is rendered as an empty-string
presence marker whether the value is true or false (false does not
render as absence on this path; only a boolean class attribute is
elided).  In setProperty's boolean-attribute reflection, true renders as
empty-string presence and any non-true value renders as attribute
absence. -/
theorem c3_boolean_attr_rendering :
    (∀ (name : String) (b : Bool), name ≠ "class" →
      getChildAttrsOrProp ⟨name, .litBool b, .attribute⟩ = some ⟨name, .strVal ""⟩)
    ∧ (∀ (name : String) (b : Bool) (ty : IrAttrType) (p : AttrProperty),
        getChildAttrsOrProp ⟨name, .litBool b, ty⟩ = some p →
        p.value ≠ .strVal "false" ∧ p.value ≠ .strVal "true")
    ∧ (∀ (e : AttrElement) (attrName : String),
        getAttribute (setPropertyBooleanAttr e attrName (.boolean true)) attrName none
          = some (.str ""))
    ∧ (∀ (e : AttrElement) (attrName : String) (v : JSVal), v ≠ .boolean true →
        getAttribute (setPropertyBooleanAttr e attrName v) attrName none = none) := by
  refine ⟨?_, ?_, ?_, ?_⟩
  · intro name b hname
    unfold getChildAttrsOrProp
    simp [hname]
  · intro name b ty p hp
    unfold getChildAttrsOrProp at hp
    by_cases hname : name = "class"
    · simp [hname] at hp
    · simp only [hname] at hp
      simp only [show (name == "class") = false by simp [hname]] at hp
      simp only [if_false, Bool.false_eq_true, Option.some_inj] at hp
      subst hp
      by_cases hty : ty == IrAttrType.attribute
      · simp [hty]
      · simp [hty]
  · intro e attrName
    unfold setPropertyBooleanAttr
    rw [if_pos rfl]
    by_cases hk : (attrName, (none : Option String)) ∈ e.attributes.map attrKey
    · exact setAttribute_update_raw e attrName (.str "") none hk
    · have := setAttribute_create_coerces e attrName (.str "") none hk
      simpa [jsToString] using this
  · intro e attrName v hv
    unfold setPropertyBooleanAttr
    rw [if_neg hv]
    exact removeAttribute_undefined_ns_absent e attrName

/-- C3 witness: the amended theorem applied at concrete inputs — a
boolean true and false attribute, the boolean-property case, and the
setProperty reflection of true and of false. -/
theorem c3_boolean_attr_rendering_witness :
    getChildAttrsOrProp ⟨"disabled", .litBool true, .attribute⟩
      = some ⟨"disabled", .strVal ""⟩
    ∧ ((getChildAttrsOrProp ⟨"hidden", .litBool false, .property⟩).get (by decide)).value
        ≠ .strVal "false"
    ∧ getAttribute (setPropertyBooleanAttr ⟨[]⟩ "disabled" (.boolean true)) "disabled" none
        = some (.str "")
    ∧ getAttribute
        (setPropertyBooleanAttr ⟨[⟨"disabled", none, .str ""⟩]⟩ "disabled" (.boolean false))
        "disabled" none = none :=
  ⟨c3_boolean_attr_rendering.1 "disabled" true (by decide),
   (c3_boolean_attr_rendering.2.1 "hidden" false .property _ rfl).1,
   c3_boolean_attr_rendering.2.2.1 ⟨[]⟩ "disabled",
   c3_boolean_attr_rendering.2.2.2 ⟨[⟨"disabled", none, .str ""⟩]⟩ "disabled"
     (.boolean false) (by decide)⟩

/-! ### Synthesized `generateMarkup` entry point (compile-js
`bGenerateMarkup` / `addGenerateMarkupExport`)

The generated `generateMarkup` body is straight-line except for two
conditionals: the wire-adapter plumbing is spliced in at compile time
only when the component declares wire adapters (part_000 lines
474-477), and the `connectedCallback` bracket runs only when the
instance declares the hook (lines 415-419).  The execution of one
invocation is therefore the statement sequence of the template
(part_000 lines 397-433) with those two segments included or not, which
the step list below reproduces in source order. -/

inductive GenerateMarkupStep where
  | defaultAttrs
  | defaultProps
  | filterProps
  | constructInstance
  | establishContext
  | connectWire
  | setInternals
  | markConnected
  | enableMutationTracker
  | runConnectedCallback
  | disableMutationTracker
  | computeTmplFn
  | yieldOpenTag
  | computeHostScopeToken
  | yieldHostAttrs
  | yieldTagClose
  | invokeTemplate
  | yieldCloseTag
deriving DecidableEq

/-- The steps one invocation of the synthesized `generateMarkup`
executes, in order: default attrs/props, filterProperties, instance
construction with the upper-cased tag, establishContextfulRelationship,
the wire-adapter connection (when declared), SET_INTERNALS and
isConnected, the mutation-tracker-bracketed connectedCallback (when
present), template-function selection, the opening tag yield, host
scope-token computation, renderAttrs yield, the closing `>` yield, the
template delegation, and the closing tag yield. -/
def generateMarkupSteps (hasWire hasConnectedCallback : Bool) :
    List GenerateMarkupStep :=
  [.defaultAttrs, .defaultProps, .filterProps, .constructInstance, .establishContext]
  ++ (if hasWire then [.connectWire] else [])
  ++ [.setInternals, .markConnected]
  ++ (if hasConnectedCallback then
        [.enableMutationTracker, .runConnectedCallback, .disableMutationTracker]
      else [])
  ++ [.computeTmplFn, .yieldOpenTag, .computeHostScopeToken, .yieldHostAttrs,
      .yieldTagClose, .invokeTemplate, .yieldCloseTag]

def stepIdx (steps : List GenerateMarkupStep) (s : GenerateMarkupStep) : Nat :=
  steps.findIdx (fun x => x == s)

/-- C4: in every invocation of the synthesized generateMarkup, the wire
connection (when declared) comes after establishing the parent-context
relationship and strictly before internal-state assignment; the
connectedCallback (when present) is bracketed by the mutation tracker
enable/disable and runs strictly before the template is invoked; and
the opening tag and the host attributes are yielded strictly before the
template content, with the opening tag before the host attributes. -/
theorem c4_generateMarkup_step_order :
    ∀ (hasWire hasConnectedCallback : Bool),
      (hasWire = true →
        GenerateMarkupStep.connectWire ∈ generateMarkupSteps hasWire hasConnectedCallback
        ∧ stepIdx (generateMarkupSteps hasWire hasConnectedCallback) .establishContext
            < stepIdx (generateMarkupSteps hasWire hasConnectedCallback) .connectWire
        ∧ stepIdx (generateMarkupSteps hasWire hasConnectedCallback) .connectWire
            < stepIdx (generateMarkupSteps hasWire hasConnectedCallback) .setInternals)
      ∧ (hasConnectedCallback = true →
          GenerateMarkupStep.runConnectedCallback
              ∈ generateMarkupSteps hasWire hasConnectedCallback
          ∧ stepIdx (generateMarkupSteps hasWire hasConnectedCallback) .enableMutationTracker
              < stepIdx (generateMarkupSteps hasWire hasConnectedCallback) .runConnectedCallback
          ∧ stepIdx (generateMarkupSteps hasWire hasConnectedCallback) .runConnectedCallback
              < stepIdx (generateMarkupSteps hasWire hasConnectedCallback) .disableMutationTracker
          ∧ stepIdx (generateMarkupSteps hasWire hasConnectedCallback) .disableMutationTracker
              < stepIdx (generateMarkupSteps hasWire hasConnectedCallback) .invokeTemplate)
      ∧ stepIdx (generateMarkupSteps hasWire hasConnectedCallback) .yieldOpenTag
          < stepIdx (generateMarkupSteps hasWire hasConnectedCallback) .yieldHostAttrs
      ∧ stepIdx (generateMarkupSteps hasWire hasConnectedCallback) .yieldHostAttrs
          < stepIdx (generateMarkupSteps hasWire hasConnectedCallback) .invokeTemplate
      ∧ stepIdx (generateMarkupSteps hasWire hasConnectedCallback) .establishContext
          < stepIdx (generateMarkupSteps hasWire hasConnectedCallback) .setInternals := by
  intro hasWire hasConnectedCallback
  cases hasWire <;> cases hasConnectedCallback <;> decide

/-- C4 witness: the ordering theorem applied to a component with wire
adapters and a connectedCallback. -/
theorem c4_generateMarkup_step_order_witness :
    (GenerateMarkupStep.connectWire ∈ generateMarkupSteps true true
      ∧ stepIdx (generateMarkupSteps true true) .establishContext
          < stepIdx (generateMarkupSteps true true) .connectWire
      ∧ stepIdx (generateMarkupSteps true true) .connectWire
          < stepIdx (generateMarkupSteps true true) .setInternals)
    ∧ (GenerateMarkupStep.runConnectedCallback ∈ generateMarkupSteps true true
      ∧ stepIdx (generateMarkupSteps true true) .enableMutationTracker
          < stepIdx (generateMarkupSteps true true) .runConnectedCallback
      ∧ stepIdx (generateMarkupSteps true true) .runConnectedCallback
          < stepIdx (generateMarkupSteps true true) .disableMutationTracker
      ∧ stepIdx (generateMarkupSteps true true) .disableMutationTracker
          < stepIdx (generateMarkupSteps true true) .invokeTemplate)
    ∧ stepIdx (generateMarkupSteps true true) .yieldOpenTag
        < stepIdx (generateMarkupSteps true true) .yieldHostAttrs :=
  ⟨(c4_generateMarkup_step_order true true).1 rfl,
   (c4_generateMarkup_step_order true true).2.1 rfl,
   (c4_generateMarkup_step_order true true).2.2.1⟩

end LWC
